import Mathlib

/-!
Verification of the retrieval-and-alignment core of the KNN file viewer.

The definitions below are shallow embeddings of the functions in
`src/app/routes/home.tsx` and `src/unnamed/part_000`:

* `hashFunction`, `getMinHash`, `calculateJaccardSimilarity`,
  `calculateSimilarities` — the MinHash fingerprint engine and the
  approximate (similarity-ranked) retriever;
* `editDistance` (with its helpers `rowAux` / `distLoop`) and `findKNN` —
  the bounded Levenshtein distance engine and the exact (distance-ranked)
  retriever;
* `getDiffLines` and `getLineDiffs` — the two-pointer and the LCS-based
  line diff.

JavaScript numbers that can be `Infinity` (the `maxDistance` bound, the
values returned by `editDistance`, the MinHash signature slots initialised
with `Infinity`) are modelled as `WithTop ℕ`; 32-bit unsigned arithmetic
(`>>> 0`) is modelled as arithmetic modulo `2 ^ 32`.  Strings are modelled
through their character lists (`String.data`); `charCodeAt` is modelled by
`Char.toNat`, which agrees with JavaScript on the basic multilingual plane
(none of the properties verified here depends on surrogate pairs).  The
JavaScript engine's `Array.prototype.sort` is stable (ES2019), which is
modelled by `List.mergeSort`.  JavaScript's FNV-style multiply
`(hash * 16777619) >>> 0` is modelled exactly modulo `2 ^ 32`; an engine
computes the product as a double, which can round for products at or above
`2 ^ 53`, but no property proved here depends on the value of a hash of a
non-empty shingle.  The one NaN the core can produce — the division
`matches / sig1.length` when `sig1` is empty — is modelled by
`calculateJaccardSimilarityJs`, whose `none` stands for NaN; the
approximate retriever itself never produces it, since its signatures
always have length `numHashes = 10`.
-/

open List

/-- JavaScript `String.prototype.split` with a one-character separator:
splitting the empty list yields `[[]]`, a trailing separator yields a
trailing empty chunk. -/
def splitOnChar (sep : Char) : List Char → List (List Char)
  | [] => [[]]
  | c :: cs =>
    if c = sep then [] :: splitOnChar sep cs
    else
      match splitOnChar sep cs with
      | [] => [[c]]
      | l :: ls => (c :: l) :: ls

theorem splitOnChar_ne_nil (sep : Char) (l : List Char) : splitOnChar sep l ≠ [] := by
  cases l with
  | nil => simp [splitOnChar]
  | cons c cs =>
    simp only [splitOnChar]
    split
    · simp
    · split <;> simp

/-- JavaScript `String.prototype.trim` on the character list of a string. -/
def jsTrim (l : List Char) : List Char :=
  ((l.dropWhile Char.isWhitespace).reverse.dropWhile Char.isWhitespace).reverse

/-- The seeded FNV-1a-style hash of `src/unnamed/part_000` lines 36–43:
`hash = seed ^ 0x811C9DC5`, then for each character
`hash ^= code; hash = (hash * 16777619) >>> 0`.  The seed is reduced
modulo `2 ^ 32` up front (JavaScript coerces it with `ToInt32` before the
XOR), so the result is always an unsigned 32-bit value. -/
def hashFunction (s : List Char) (seed : ℕ) : ℕ :=
  s.foldl (fun h c => ((h ^^^ c.toNat) * 16777619) % 4294967296)
    ((seed % 4294967296) ^^^ 2166136261)

theorem hashFunction_lt (s : List Char) (seed : ℕ) : hashFunction s seed < 4294967296 := by
  have step : ∀ (l : List Char) (h : ℕ), h < 4294967296 →
      l.foldl (fun h c => ((h ^^^ c.toNat) * 16777619) % 4294967296) h < 4294967296 := by
    intro l
    induction l with
    | nil => intro h hh; simpa using hh
    | cons c cs ih =>
      intro h _
      exact ih _ (Nat.mod_lt _ (by norm_num))
  refine step _ _ ?_
  have h1 : seed % 4294967296 < 4294967296 := Nat.mod_lt _ (by norm_num)
  have h2 : (2166136261 : ℕ) < 4294967296 := by norm_num
  calc (seed % 4294967296) ^^^ 2166136261 < 2 ^ 32 :=
        Nat.xor_lt_two_pow (by simpa using h1) (by norm_num)
    _ = 4294967296 := by norm_num

/-- The MinHash fingerprint of `src/unnamed/part_000` lines 45–64: the first
10000 characters are split on newline into shingles, each shingle is
trimmed and hashed with seeds `0, …, numHashes − 1`, and slot `i` is the
minimum hash under seed `i`, starting from the `Infinity` initialiser. -/
def getMinHash (text : String) (numHashes : ℕ) : List (WithTop ℕ) :=
  let sentences := splitOnChar '\n' (text.data.take 10000)
  (List.range numHashes).map fun i =>
    sentences.foldl (fun acc sen => min acc ((hashFunction (jsTrim sen) i : ℕ) : WithTop ℕ)) ⊤

theorem foldl_min_coe (g : List Char → ℕ) (l : List (List Char)) (a : ℕ) :
    l.foldl (fun acc sen => min acc ((g sen : ℕ) : WithTop ℕ)) ((a : ℕ) : WithTop ℕ)
      = ((l.foldl (fun acc sen => min acc (g sen)) a : ℕ) : WithTop ℕ) := by
  induction l generalizing a with
  | nil => rfl
  | cons x xs ih =>
    simp only [List.foldl_cons]
    have h1 : ((a : WithTop ℕ)) ⊓ ((g x : ℕ) : WithTop ℕ) = (((a ⊓ g x : ℕ)) : WithTop ℕ) := by
      exact_mod_cast rfl
    rw [h1]
    exact ih _

theorem foldl_min_le_init (g : List Char → ℕ) (l : List (List Char)) (a : ℕ) :
    l.foldl (fun acc sen => min acc (g sen)) a ≤ a := by
  induction l generalizing a with
  | nil => simp
  | cons x xs ih =>
    simp only [List.foldl_cons]
    exact le_trans (ih _) (min_le_left _ _)

theorem getMinHash_slot_finite (text : String) (numHashes : ℕ) :
    ∀ v ∈ getMinHash text numHashes, ∃ n : ℕ, v = (n : WithTop ℕ) ∧ n < 4294967296 := by
  intro v hv
  simp only [getMinHash, List.mem_map, List.mem_range] at hv
  obtain ⟨i, -, rfl⟩ := hv
  set sentences := splitOnChar '\n' (text.data.take 10000) with hs
  obtain ⟨s0, rest, hrest⟩ : ∃ s0 rest, sentences = s0 :: rest := by
    cases h : sentences with
    | nil => exact absurd (hs ▸ h) (by simpa [hs] using splitOnChar_ne_nil '\n' (text.data.take 10000))
    | cons s0 rest => exact ⟨s0, rest, rfl⟩
  rw [hrest]
  simp only [List.foldl_cons]
  rw [show min (⊤ : WithTop ℕ) ((hashFunction (jsTrim s0) i : ℕ) : WithTop ℕ)
        = ((hashFunction (jsTrim s0) i : ℕ) : WithTop ℕ) from min_eq_right le_top]
  rw [foldl_min_coe (fun sen => hashFunction (jsTrim sen) i)]
  refine ⟨_, rfl, ?_⟩
  exact lt_of_le_of_lt (foldl_min_le_init _ _ _) (hashFunction_lt _ _)

/-- The position-wise signature agreement of `src/unnamed/part_000` lines
66–72, on the domain where its division is a real number: the loop runs
over the indices of `sig1` and counts positions where `sig1[i] === sig2[i]`
(an out-of-range access on `sig2` is `undefined` and never equal to a
number), and the count is divided by `sig1.length`.  For empty `sig1` the
source's division is `0 / 0 = NaN`, which `ℚ` cannot represent; that case
is carried by `calculateJaccardSimilarityJs` below and never arises in the
retriever, whose signatures always have length `numHashes = 10`
(`calculateJaccardSimilarityJs_retriever`). -/
def calculateJaccardSimilarity (sig1 sig2 : List (WithTop ℕ)) : ℚ :=
  (((List.range sig1.length).countP (fun i => decide (sig1[i]? = sig2[i]?)) : ℕ) : ℚ)
    / ((sig1.length : ℕ) : ℚ)

/-- The signature agreement exactly as the JavaScript engine computes it:
`matches / sig1.length` is NaN when `sig1.length = 0` (modelled `none`;
`matches ≤ sig1.length`, so this is the only division-by-zero case) and
otherwise the rational value of `calculateJaccardSimilarity`. -/
def calculateJaccardSimilarityJs (sig1 sig2 : List (WithTop ℕ)) : Option ℚ :=
  if sig1.length = 0 then none else some (calculateJaccardSimilarity sig1 sig2)

theorem calculateJaccardSimilarityJs_retriever (data : String → String) (q p : String) :
    calculateJaccardSimilarityJs (getMinHash (data q) 10) (getMinHash (data p) 10)
      = some (calculateJaccardSimilarity (getMinHash (data q) 10) (getMinHash (data p) 10)) := by
  unfold calculateJaccardSimilarityJs
  rw [if_neg (by simp [getMinHash])]

/-- A neighbor entry of the approximate (similarity-ranked) retriever. -/
structure SimResult where
  path : String
  similarity : ℚ
deriving DecidableEq

/-- The scored candidate list of the approximate retriever
(`src/unnamed/part_000` lines 83–88): every path other than the query,
paired with the signature agreement against the query's signature. -/
def similarityScored (data : String → String) (selectedPath : String)
    (allPaths : List String) : List SimResult :=
  (allPaths.filter (fun path => decide (path ≠ selectedPath))).map
    (fun path => SimResult.mk path
      (calculateJaccardSimilarity (getMinHash (data selectedPath) 10)
        (getMinHash (data path) 10)))

/-- The approximate retriever of `src/unnamed/part_000` lines 75–91: every
path other than the query is scored against the query's signature, the
scored list is sorted descending by similarity with JavaScript's stable
sort, and the first `k` entries are returned. -/
def calculateSimilarities (data : String → String) (selectedPath : String)
    (allPaths : List String) (k : ℕ) : List SimResult :=
  ((similarityScored data selectedPath allPaths).mergeSort
    (fun a b => decide (b.similarity ≤ a.similarity))).take k

/-- Claim C3 (counterexample): the claim states that for empty content every
signature slot is the theoretical-maximum sentinel (the `Infinity` used as
`+∞` in the min-reduction).  In the code, splitting the empty string on
newline yields one empty shingle, so every slot is the (finite) hash of the
empty shingle and the `Infinity` initialiser never survives: no slot of
`getMinHash "" 10` is the `⊤` sentinel. -/
theorem C3_cex_getMinHash_empty_not_top : (⊤ : WithTop ℕ) ∉ getMinHash "" 10 := by
  decide

/-- Claim C3 (amended): for empty content the signature has `numHashes`
slots and slot `i` is the finite hash `hashFunction [] i` of the single
empty shingle produced by splitting — not the `Infinity` sentinel. -/
theorem C3_getMinHash_empty_eq (h : ℕ) :
    getMinHash "" h = (List.range h).map (fun i => ((hashFunction [] i : ℕ) : WithTop ℕ)) := by
  unfold getMinHash
  refine List.map_congr_left (fun i _ => ?_)
  show List.foldl _ ⊤ (splitOnChar '\n' (("" : String).data.take 10000)) = _
  rw [show splitOnChar '\n' (("" : String).data.take 10000) = [[]] from rfl]
  simp only [List.foldl_cons, List.foldl_nil]
  exact min_eq_right le_top

/-- Claim C10: for every input string (including the empty string) and every
`numHashes ≥ 1`, `getMinHash` returns exactly `numHashes` slots, and every
slot is a finite unsigned 32-bit value: the newline split always yields at
least one shingle, so the `Infinity` initialiser is always overwritten. -/
theorem C10_getMinHash_slots (s : String) (h : ℕ) (hh : 1 ≤ h) :
    (getMinHash s h).length = h ∧
      ∀ v ∈ getMinHash s h, ∃ n : ℕ, v = (n : WithTop ℕ) ∧ n < 2 ^ 32 := by
  refine ⟨by simp [getMinHash], fun v hv => ?_⟩
  obtain ⟨n, hn, hlt⟩ := getMinHash_slot_finite s h v hv
  exact ⟨n, hn, by norm_num at hlt ⊢; exact hlt⟩

/-- Witness for claim C10 at a concrete input. -/
theorem C10_getMinHash_slots_witness :
    (getMinHash "ab" 2).length = 2 ∧
      ∀ v ∈ getMinHash "ab" 2, ∃ n : ℕ, v = (n : WithTop ℕ) ∧ n < 2 ^ 32 :=
  C10_getMinHash_slots "ab" 2 (by norm_num)

/-- Claim C9 (counterexample): the claim states that a signature-length
mismatch makes `similarity` fail with an `InvalidArgument` error rather than
return a number.  The source function performs no length validation and has
no error path: on mismatched signatures of lengths 1 and 0 it returns the
ordinary number `0`. -/
theorem C9_cex_jaccard_mismatch_returns_number :
    calculateJaccardSimilarity [((5 : ℕ) : WithTop ℕ)] [] = 0 ∧
      ([((5 : ℕ) : WithTop ℕ)] : List (WithTop ℕ)).length ≠ ([] : List (WithTop ℕ)).length := by
  constructor
  · have hcount : ((List.range ([((5 : ℕ) : WithTop ℕ)] : List (WithTop ℕ)).length).countP
        (fun i => decide (([((5 : ℕ) : WithTop ℕ)] : List (WithTop ℕ))[i]?
          = ([] : List (WithTop ℕ))[i]?))) = 0 := by decide
    unfold calculateJaccardSimilarity
    rw [hcount]
    norm_num
  · decide

theorem jaccard_bounds (sig1 sig2 : List (WithTop ℕ)) :
    0 ≤ calculateJaccardSimilarity sig1 sig2 ∧ calculateJaccardSimilarity sig1 sig2 ≤ 1 := by
  constructor
  · unfold calculateJaccardSimilarity
    positivity
  · unfold calculateJaccardSimilarity
    rcases Nat.eq_zero_or_pos sig1.length with h0 | h0
    · rw [h0]
      simp
    · rw [div_le_one (by exact_mod_cast h0)]
      have hc : (List.range sig1.length).countP (fun i => decide (sig1[i]? = sig2[i]?))
          ≤ sig1.length := by
        simpa using List.countP_le_length
          (fun i => decide (sig1[i]? = sig2[i]?)) (l := List.range sig1.length)
      exact_mod_cast hc

/-- Claim C9 (amended): `similarity` performs no length validation and has
no error path — it never fails with `InvalidArgument`.  On any pair of
signatures, including mismatched lengths, with `sigA` non-empty it returns
the fraction of positions `i < len(sigA)` where `sigA[i] = sigB[i]`, a
number in `[0, 1]`; with `sigA` empty its division is `0 / 0`, the NaN
value, not an error. -/
theorem C9_jaccard_no_error (sig1 sig2 : List (WithTop ℕ)) :
    (sig1.length ≠ 0 →
      ∃ q : ℚ, calculateJaccardSimilarityJs sig1 sig2 = some q ∧ 0 ≤ q ∧ q ≤ 1)
    ∧ (sig1.length = 0 → calculateJaccardSimilarityJs sig1 sig2 = none) := by
  constructor
  · intro h
    refine ⟨calculateJaccardSimilarity sig1 sig2, ?_,
      (jaccard_bounds sig1 sig2).1, (jaccard_bounds sig1 sig2).2⟩
    unfold calculateJaccardSimilarityJs
    rw [if_neg h]
  · intro h
    unfold calculateJaccardSimilarityJs
    rw [if_pos h]

/-- Witness for claim C9 (amended) at concrete inputs: the mismatched pair
of lengths 1 and 0 yields the number `0`, and an empty first signature
yields NaN. -/
theorem C9_jaccard_no_error_witness :
    (∃ q : ℚ, calculateJaccardSimilarityJs [((5 : ℕ) : WithTop ℕ)] [] = some q
        ∧ 0 ≤ q ∧ q ≤ 1)
    ∧ calculateJaccardSimilarityJs [] [((5 : ℕ) : WithTop ℕ)] = none :=
  ⟨(C9_jaccard_no_error [((5 : ℕ) : WithTop ℕ)] []).1 (by decide),
   (C9_jaccard_no_error [] [((5 : ℕ) : WithTop ℕ)]).2 rfl⟩

/-! ### The Levenshtein distance engine

`lev` is the reference Levenshtein distance with unit costs (Mathlib's
`levenshtein` with the default cost structure); the claims about
`editDistance` are settled against it. -/

/-- Reference unit-cost Levenshtein distance. -/
def lev {α : Type*} [DecidableEq α] (xs ys : List α) : ℕ :=
  levenshtein Levenshtein.defaultCost xs ys

theorem lev_nil_left {α : Type*} [DecidableEq α] (ys : List α) : lev ([] : List α) ys = ys.length := by
  induction ys with
  | nil => rfl
  | cons y ys ih =>
    show levenshtein Levenshtein.defaultCost [] (y :: ys) = _
    rw [levenshtein_nil_cons]
    show Levenshtein.defaultCost.insert y + lev [] ys = _
    rw [ih]
    simp only [Levenshtein.defaultCost_insert, List.length_cons]
    omega

theorem lev_nil_right {α : Type*} [DecidableEq α] (xs : List α) : lev xs ([] : List α) = xs.length := by
  induction xs with
  | nil => rfl
  | cons x xs ih =>
    show levenshtein Levenshtein.defaultCost (x :: xs) [] = _
    rw [levenshtein_cons_nil]
    show Levenshtein.defaultCost.delete x + lev xs [] = _
    rw [ih]
    simp only [Levenshtein.defaultCost_delete, List.length_cons]
    omega

theorem lev_cons_cons {α : Type*} [DecidableEq α] (x : α) (xs : List α) (y : α) (ys : List α) :
    lev (x :: xs) (y :: ys) =
      min (1 + lev xs (y :: ys))
        (min (1 + lev (x :: xs) ys) ((if x = y then 0 else 1) + lev xs ys)) := by
  show levenshtein Levenshtein.defaultCost (x :: xs) (y :: ys) = _
  rw [levenshtein_cons_cons]
  simp only [Levenshtein.defaultCost_delete, Levenshtein.defaultCost_insert,
    Levenshtein.defaultCost_substitute]
  rfl

theorem min_shuffle (ca cx A1 A2 A3 B1 B2 B3 C1 C2 C3 : ℕ) :
    min (1 + min (A1 + 1) (min (A2 + 1) (A3 + cx)))
      (min (1 + min (B1 + 1) (min (B2 + 1) (B3 + cx)))
        (ca + min (C1 + 1) (min (C2 + 1) (C3 + cx))))
      = min (min (1 + A1) (min (1 + B1) (ca + C1)) + 1)
        (min (min (1 + A2) (min (1 + B2) (ca + C2)) + 1)
          (min (1 + A3) (min (1 + B3) (ca + C3)) + cx)) := by
  have e1 : 1 + min (A1 + 1) (min (A2 + 1) (A3 + cx))
      = min (A1 + 2) (min (A2 + 2) (A3 + cx + 1)) := by omega
  have e2 : 1 + min (B1 + 1) (min (B2 + 1) (B3 + cx))
      = min (B1 + 2) (min (B2 + 2) (B3 + cx + 1)) := by omega
  have e3 : ca + min (C1 + 1) (min (C2 + 1) (C3 + cx))
      = min (C1 + 1 + ca) (min (C2 + 1 + ca) (C3 + cx + ca)) := by omega
  have e4 : min (1 + A1) (min (1 + B1) (ca + C1)) + 1
      = min (A1 + 2) (min (B1 + 2) (C1 + 1 + ca)) := by omega
  have e5 : min (1 + A2) (min (1 + B2) (ca + C2)) + 1
      = min (A2 + 2) (min (B2 + 2) (C2 + 1 + ca)) := by omega
  have e6 : min (1 + A3) (min (1 + B3) (ca + C3)) + cx
      = min (A3 + cx + 1) (min (B3 + cx + 1) (C3 + cx + ca)) := by omega
  rw [e1, e2, e3, e4, e5, e6]
  refine le_antisymm ?_ ?_ <;> simp only [le_min_iff, min_le_iff] <;> omega

set_option maxHeartbeats 1600000 in
theorem lev_snoc_snoc {α : Type*} [DecidableEq α] (x y : α) : ∀ (as bs : List α),
    lev (as ++ [x]) (bs ++ [y]) =
      min (lev as (bs ++ [y]) + 1)
        (min (lev (as ++ [x]) bs + 1) (lev as bs + (if x = y then 0 else 1))) := by
  intro as
  induction as with
  | nil =>
    intro bs
    induction bs with
    | nil =>
      rw [show (([] : List α) ++ [x]) = x :: [] from rfl,
        show (([] : List α) ++ [y]) = y :: [] from rfl]
      rw [lev_cons_cons]
      simp only [lev_nil_left, lev_nil_right, List.length_nil, List.length_cons]
      split_ifs <;> omega
    | cons b bs ihb =>
      simp only [List.nil_append, List.cons_append] at ihb ⊢
      rw [lev_cons_cons x [] b (bs ++ [y]), lev_cons_cons x [] b bs, ihb]
      simp only [lev_nil_left, List.length_append, List.length_cons, List.length_nil]
      split_ifs <;> omega
  | cons a as iha =>
    intro bs
    induction bs with
    | nil =>
      have h1 := iha []
      simp only [List.nil_append, List.cons_append] at h1 ⊢
      rw [lev_cons_cons a (as ++ [x]) y [], lev_cons_cons a as y [], h1]
      simp only [lev_nil_left, lev_nil_right, List.length_append, List.length_cons,
        List.length_nil]
      split_ifs <;> omega
    | cons b bs ihb =>
      have h1 := iha (b :: bs)
      have h2 := ihb
      have h3 := iha bs
      simp only [List.cons_append] at h1 h2 h3 ⊢
      rw [lev_cons_cons a (as ++ [x]) b (bs ++ [y]), h1, h2, h3,
        lev_cons_cons a as b (bs ++ [y]), lev_cons_cons a (as ++ [x]) b bs,
        lev_cons_cons a as b bs]
      exact min_shuffle _ _ _ _ _ _ _ _ _ _ _

theorem lev_dist_le {α : Type*} [DecidableEq α] : ∀ (as bs : List α),
    Nat.dist as.length bs.length ≤ lev as bs := by
  intro as
  induction as with
  | nil =>
    intro bs
    rw [lev_nil_left]
    simp [Nat.dist]
  | cons a as iha =>
    intro bs
    induction bs with
    | nil =>
      rw [lev_nil_right]
      simp [Nat.dist]
    | cons b bs ihb =>
      have h1 := iha (b :: bs)
      have h2 := iha bs
      rw [lev_cons_cons]
      simp only [Nat.dist, List.length_cons] at h1 h2 ihb ⊢
      split_ifs <;> omega

theorem lev_self {α : Type*} [DecidableEq α] : ∀ as : List α, lev as as = 0 := by
  intro as
  induction as with
  | nil => rfl
  | cons a as ih =>
    rw [lev_cons_cons]
    simp [ih]

/-- One inner iteration block of the `editDistance` DP loop
(`src/app/routes/home.tsx` lines 396–403): given the previous row and the
value `curr[j-1]` to the left, produce `curr[1], …, curr[lenB]` with
`curr[j] = min(prev[j] + 1, curr[j-1] + 1, prev[j-1] + (a[i-1] === b[j-1] ? 0 : 1))`. -/
def rowAux {α : Type*} [DecidableEq α] (x : α) : List α → ℕ → List ℕ → List ℕ
  | [], _, _ => []
  | y :: ys, left, p0 :: p1 :: ps =>
    (min (p1 + 1) (min (left + 1) (p0 + (if x = y then 0 else 1)))) ::
      rowAux x ys (min (p1 + 1) (min (left + 1) (p0 + (if x = y then 0 else 1)))) (p1 :: ps)
  | _ :: _, _, _ => []

/-- The reference value of a DP row: `rowFrom as c bs` lists
`lev as (c ++ p)` for every prefix `p` of `bs`, in order. -/
def rowFrom {α : Type*} [DecidableEq α] (as : List α) : List α → List α → List ℕ
  | c, [] => [lev as c]
  | c, y :: ys => lev as c :: rowFrom as (c ++ [y]) ys

theorem rowFrom_head {α : Type*} [DecidableEq α] (as c bs : List α) :
    ∃ t, rowFrom as c bs = lev as c :: t := by
  cases bs <;> exact ⟨_, rfl⟩

theorem rowFrom_ne_nil {α : Type*} [DecidableEq α] (as c bs : List α) :
    rowFrom as c bs ≠ [] := by
  obtain ⟨t, ht⟩ := rowFrom_head as c bs
  simp [ht]

/-- Last element of a list with a default, as the JavaScript access
`prev[lenB]` on a row of length `lenB + 1`. -/
def lastD (d : ℕ) : List ℕ → ℕ
  | [] => d
  | [x] => x
  | _ :: x :: xs => lastD d (x :: xs)

theorem lastD_cons (d a : ℕ) (l : List ℕ) (hl : l ≠ []) : lastD d (a :: l) = lastD d l := by
  cases l with
  | nil => exact absurd rfl hl
  | cons x xs => rfl

theorem rowFrom_lastD {α : Type*} [DecidableEq α] (as : List α) :
    ∀ (bs c : List α) (d : ℕ), lastD d (rowFrom as c bs) = lev as (c ++ bs) := by
  intro bs
  induction bs with
  | nil =>
    intro c d
    simp [rowFrom, lastD]
  | cons y ys ih =>
    intro c d
    show lastD d (lev as c :: rowFrom as (c ++ [y]) ys) = _
    rw [lastD_cons d _ _ (rowFrom_ne_nil _ _ _), ih (c ++ [y])]
    simp

theorem rowAux_spec {α : Type*} [DecidableEq α] (x : α) (as : List α) :
    ∀ (bs c : List α),
      rowAux x bs (lev (as ++ [x]) c) (rowFrom as c bs) = (rowFrom (as ++ [x]) c bs).tail := by
  intro bs
  induction bs with
  | nil => intro c; rfl
  | cons y ys ih =>
    intro c
    obtain ⟨t, ht⟩ := rowFrom_head as (c ++ [y]) ys
    show rowAux x (y :: ys) (lev (as ++ [x]) c) (lev as c :: rowFrom as (c ++ [y]) ys) = _
    rw [ht]
    simp only [rowAux]
    rw [show min (lev as (c ++ [y]) + 1)
          (min (lev (as ++ [x]) c + 1) (lev as c + (if x = y then 0 else 1)))
        = lev (as ++ [x]) (c ++ [y]) from (lev_snoc_snoc x y as c).symm]
    rw [← ht, ih (c ++ [y])]
    obtain ⟨t2, ht2⟩ := rowFrom_head (as ++ [x]) (c ++ [y]) ys
    show _ = (rowFrom (as ++ [x]) c (y :: ys)).tail
    rw [show rowFrom (as ++ [x]) c (y :: ys)
        = lev (as ++ [x]) c :: rowFrom (as ++ [x]) (c ++ [y]) ys from rfl]
    rw [List.tail_cons]
    rw [ht2, List.tail_cons]

/-- Minimum of a JavaScript row: `minInRow` starts at `curr[0]` and is
folded with `Math.min` over the rest of the row. -/
def listMin : List ℕ → ℕ
  | [] => 0
  | x :: xs => xs.foldl min x

theorem foldl_min_le_start (l : List ℕ) : ∀ a : ℕ, l.foldl min a ≤ a := by
  induction l with
  | nil => intro a; simp
  | cons x xs ih =>
    intro a
    simp only [List.foldl_cons]
    exact le_trans (ih _) (min_le_left _ _)

theorem foldl_min_le_mem (l : List ℕ) : ∀ (a b : ℕ), b ∈ l → l.foldl min a ≤ b := by
  induction l with
  | nil => intro a b hb; simp at hb
  | cons x xs ih =>
    intro a b hb
    rcases List.mem_cons.mp hb with rfl | hb
    · simp only [List.foldl_cons]
      exact le_trans (foldl_min_le_start _ _) (min_le_right _ _)
    · exact ih _ b hb

theorem listMin_le_of_mem {l : List ℕ} {b : ℕ} (h : b ∈ l) : listMin l ≤ b := by
  cases l with
  | nil => simp at h
  | cons x xs =>
    rcases List.mem_cons.mp h with rfl | h
    · exact foldl_min_le_start _ _
    · exact foldl_min_le_mem _ _ _ h

theorem le_foldl_min (c : ℕ) (l : List ℕ) : ∀ a : ℕ, c ≤ a → (∀ b ∈ l, c ≤ b) → c ≤ l.foldl min a := by
  induction l with
  | nil => intro a ha _; simpa using ha
  | cons x xs ih =>
    intro a ha h
    simp only [List.foldl_cons]
    exact ih _ (le_min ha (h x (List.mem_cons_self _ _))) (fun b hb => h b (List.mem_cons_of_mem _ hb))

theorem le_listMin {c : ℕ} {l : List ℕ} (hne : l ≠ []) (h : ∀ b ∈ l, c ≤ b) : c ≤ listMin l := by
  cases l with
  | nil => exact absurd rfl hne
  | cons x xs =>
    exact le_foldl_min c xs x (h x (List.mem_cons_self _ _))
      (fun b hb => h b (List.mem_cons_of_mem _ hb))

theorem lev_mem_rowFrom {α : Type*} [DecidableEq α] (as : List α) :
    ∀ (bs c p : List α), p <+: bs → lev as (c ++ p) ∈ rowFrom as c bs := by
  intro bs
  induction bs with
  | nil =>
    intro c p hp
    rw [List.prefix_nil.mp hp]
    simp [rowFrom]
  | cons y ys ih =>
    intro c p hp
    cases p with
    | nil => simp [rowFrom]
    | cons q p2 =>
      obtain ⟨hq, hp2⟩ := List.cons_prefix_cons.mp hp
      subst hq
      have hmem := ih (c ++ [q]) p2 hp2
      show lev as (c ++ q :: p2) ∈ lev as c :: rowFrom as (c ++ [q]) ys
      rw [show c ++ q :: p2 = (c ++ [q]) ++ p2 by simp]
      exact List.mem_cons_of_mem _ hmem

theorem mem_rowFrom_inv {α : Type*} [DecidableEq α] (as : List α) :
    ∀ (bs c : List α) (b : ℕ), b ∈ rowFrom as c bs → ∃ p, p <+: bs ∧ b = lev as (c ++ p) := by
  intro bs
  induction bs with
  | nil =>
    intro c b hb
    simp [rowFrom] at hb
    exact ⟨[], List.prefix_refl _, by simpa using hb⟩
  | cons y ys ih =>
    intro c b hb
    rcases List.mem_cons.mp hb with rfl | hb
    · exact ⟨[], List.nil_prefix, by simp⟩
    · obtain ⟨p, hp, rfl⟩ := ih (c ++ [y]) b hb
      exact ⟨y :: p, List.cons_prefix_cons.mpr ⟨rfl, hp⟩, by simp⟩

theorem exists_prefix_lev_le {α : Type*} [DecidableEq α] (x : α) (u : List α) :
    ∀ bs : List α, ∃ p, p <+: bs ∧ lev u p ≤ lev (u ++ [x]) bs := by
  intro bs
  induction bs using List.reverseRecOn with
  | nil =>
    refine ⟨[], List.prefix_refl _, ?_⟩
    rw [lev_nil_right, lev_nil_right]
    simp
  | append_singleton bs y ih =>
    have hs := lev_snoc_snoc x y u bs
    set cx := (if x = y then 0 else 1) with hcx
    have h3 : lev (u ++ [x]) (bs ++ [y]) = lev u (bs ++ [y]) + 1
        ∨ lev (u ++ [x]) (bs ++ [y]) = lev (u ++ [x]) bs + 1
        ∨ lev (u ++ [x]) (bs ++ [y]) = lev u bs + cx := by omega
    rcases h3 with h | h | h
    · exact ⟨bs ++ [y], List.prefix_refl _, by omega⟩
    · obtain ⟨p, hp, hle⟩ := ih
      exact ⟨p, hp.trans (List.prefix_append bs [y]), by omega⟩
    · exact ⟨bs, List.prefix_append bs [y], by omega⟩

theorem listMin_rowFrom_le {α : Type*} [DecidableEq α] (bs : List α) :
    ∀ (w u : List α), listMin (rowFrom u [] bs) ≤ lev (u ++ w) bs := by
  intro w
  induction w with
  | nil =>
    intro u
    have hm := lev_mem_rowFrom u bs [] bs (List.prefix_refl bs)
    rw [List.nil_append] at hm
    simpa using listMin_le_of_mem hm
  | cons x w ih =>
    intro u
    have step : listMin (rowFrom u [] bs) ≤ listMin (rowFrom (u ++ [x]) [] bs) := by
      refine le_listMin (rowFrom_ne_nil _ _ _) ?_
      intro b hb
      obtain ⟨q, hq, rfl⟩ := mem_rowFrom_inv (u ++ [x]) bs [] b hb
      rw [List.nil_append]
      obtain ⟨p, hp, hle⟩ := exists_prefix_lev_le x u q
      have hm := lev_mem_rowFrom u bs [] p (hp.trans hq)
      rw [List.nil_append] at hm
      exact le_trans (listMin_le_of_mem hm) hle
    have h2 := ih (u ++ [x])
    rw [← List.append_cons] at h2
    exact le_trans step h2

/-- The main row loop of `editDistance` (`src/app/routes/home.tsx` lines
392–412): one iteration per remaining character of `a`, carrying the row
index `i` (the source sets `curr[0] = i` on row `i`; here `i` counts the
characters already consumed, so the new row starts with `i + 1`); after
computing a row the loop aborts with `maxDistance + 1` when the row minimum
exceeds `maxDistance`, and at the end returns `prev[lenB]`, the last entry
of the final row. -/
def distLoop {α : Type*} [DecidableEq α] (m : WithTop ℕ) (bs : List α) :
    List α → ℕ → List ℕ → WithTop ℕ
  | [], _, prev => ((lastD 0 prev : ℕ) : WithTop ℕ)
  | x :: xs, i, prev =>
    if m < ((listMin ((i + 1) :: rowAux x bs (i + 1) prev) : ℕ) : WithTop ℕ) then m + 1
    else distLoop m bs xs (i + 1) ((i + 1) :: rowAux x bs (i + 1) prev)

theorem distLoop_spec {α : Type*} [DecidableEq α] (m : WithTop ℕ) (bs : List α) :
    ∀ (xs as : List α),
      distLoop m bs xs as.length (rowFrom as [] bs) = ((lev (as ++ xs) bs : ℕ) : WithTop ℕ)
      ∨ (distLoop m bs xs as.length (rowFrom as [] bs) = m + 1
          ∧ m < ((lev (as ++ xs) bs : ℕ) : WithTop ℕ)) := by
  intro xs
  induction xs with
  | nil =>
    intro as
    left
    show ((lastD 0 (rowFrom as [] bs) : ℕ) : WithTop ℕ) = _
    rw [rowFrom_lastD as bs [] 0]
    simp
  | cons x xs ih =>
    intro as
    have hlen : lev (as ++ [x]) ([] : List α) = as.length + 1 := by
      rw [lev_nil_right]
      simp
    have hcurr : (as.length + 1) :: rowAux x bs (as.length + 1) (rowFrom as [] bs)
        = rowFrom (as ++ [x]) [] bs := by
      have h2 := rowAux_spec x as bs []
      rw [hlen] at h2
      obtain ⟨t, ht⟩ := rowFrom_head (as ++ [x]) [] bs
      rw [h2, ht, List.tail_cons, ← hlen]
    have hunfold : distLoop m bs (x :: xs) as.length (rowFrom as [] bs)
        = if m < ((listMin (rowFrom (as ++ [x]) [] bs) : ℕ) : WithTop ℕ) then m + 1
          else distLoop m bs xs (as.length + 1) (rowFrom (as ++ [x]) [] bs) := by
      conv_lhs => rw [distLoop]
      rw [hcurr]
    rw [hunfold]
    by_cases hab : m < ((listMin (rowFrom (as ++ [x]) [] bs) : ℕ) : WithTop ℕ)
    · rw [if_pos hab]
      right
      refine ⟨rfl, ?_⟩
      have hb := listMin_rowFrom_le bs xs (as ++ [x])
      have h3 : m < ((lev ((as ++ [x]) ++ xs) bs : ℕ) : WithTop ℕ) :=
        lt_of_lt_of_le hab (WithTop.coe_le_coe.mpr hb)
      rwa [← List.append_cons] at h3
    · rw [if_neg hab]
      have h4 := ih (as ++ [x])
      rw [show (as ++ [x]).length = as.length + 1 by simp] at h4
      rwa [← List.append_cons] at h4

theorem rowFrom_nil_eq_range {α : Type*} [DecidableEq α] :
    ∀ (bs c : List α), rowFrom ([] : List α) c bs = List.range' c.length (bs.length + 1) := by
  intro bs
  induction bs with
  | nil =>
    intro c
    show [lev ([] : List α) c] = _
    rw [lev_nil_left]
    rfl
  | cons y ys ih =>
    intro c
    show lev ([] : List α) c :: rowFrom ([] : List α) (c ++ [y]) ys = _
    rw [lev_nil_left, ih (c ++ [y])]
    simp [List.range'_succ]

theorem range_eq_rowFrom {α : Type*} [DecidableEq α] (bs : List α) :
    List.range (bs.length + 1) = rowFrom ([] : List α) [] bs := by
  rw [rowFrom_nil_eq_range bs []]
  simp [List.range_eq_range']

/-- The bounded Levenshtein distance of `src/app/routes/home.tsx` lines
373–413: empty input returns `maxDistance` itself; a length difference
above `maxDistance` returns `maxDistance + 1`; otherwise a two-row rolling
DP over the characters of `a`, initial row `0, …, lenB`, with the
row-minimum early abort returning `maxDistance + 1`.  The two
`length === 0` early returns of the source are unreachable (the `!a || !b`
check already caught empty strings) but are kept for faithfulness. -/
def editDistance (a b : String) (m : WithTop ℕ) : WithTop ℕ :=
  if a.data = [] ∨ b.data = [] then m
  else if m < ((Nat.dist a.data.length b.data.length : ℕ) : WithTop ℕ) then m + 1
  else if a.data.length = 0 then ((b.data.length : ℕ) : WithTop ℕ)
  else if b.data.length = 0 then ((a.data.length : ℕ) : WithTop ℕ)
  else distLoop m b.data a.data 0 (List.range (b.data.length + 1))

theorem editDistance_cases (a b : String) (m : WithTop ℕ)
    (ha : a.data ≠ []) (hb : b.data ≠ []) :
    editDistance a b m = ((lev a.data b.data : ℕ) : WithTop ℕ)
    ∨ (editDistance a b m = m + 1 ∧ m < ((lev a.data b.data : ℕ) : WithTop ℕ)) := by
  unfold editDistance
  rw [if_neg (by simp [ha, hb])]
  by_cases hdist : m < ((Nat.dist a.data.length b.data.length : ℕ) : WithTop ℕ)
  · rw [if_pos hdist]
    right
    exact ⟨rfl, lt_of_lt_of_le hdist (WithTop.coe_le_coe.mpr (lev_dist_le _ _))⟩
  · rw [if_neg hdist, if_neg (fun h => ha (List.length_eq_zero.mp h)),
      if_neg (fun h => hb (List.length_eq_zero.mp h))]
    rw [range_eq_rowFrom b.data]
    have h5 := distLoop_spec m b.data a.data []
    simpa using h5

theorem distLoop_ne_top {α : Type*} [DecidableEq α] (m : WithTop ℕ) (hm : m ≠ ⊤) (bs : List α) :
    ∀ (xs : List α) (i : ℕ) (prev : List ℕ), distLoop m bs xs i prev ≠ ⊤ := by
  intro xs
  induction xs with
  | nil => intro i prev; exact WithTop.coe_ne_top
  | cons x xs ih =>
    intro i prev
    show (if _ then m + 1 else _) ≠ ⊤
    split
    · exact WithTop.add_ne_top.mpr ⟨hm, WithTop.one_ne_top⟩
    · exact ih _ _

theorem editDistance_ne_top (a b : String) (m : WithTop ℕ) (hm : m ≠ ⊤) :
    editDistance a b m ≠ ⊤ := by
  unfold editDistance
  split
  · exact hm
  · split
    · exact WithTop.add_ne_top.mpr ⟨hm, WithTop.one_ne_top⟩
    · split
      · exact WithTop.coe_ne_top
      · split
        · exact WithTop.coe_ne_top
        · exact distLoop_ne_top m hm _ _ _ _

/-- Claim C2 (counterexample): the claim states that for non-empty strings
the return value is the exact distance when it is at most `maxDistance`,
and otherwise is always one of the two sentinels `maxDistance` or
`maxDistance + 1`.  At `a = "VWabc"`, `b = "abcXY"`, `maxDistance = 2`, the
true distance is `4 > 2`, every DP row minimum stays at or below `2` (each
row contains the distance of a prefix of `"VWabc"` to `"abc"`, which is at
most `2`), so the early abort never fires and the function returns the raw
value `4` — neither sentinel `2` nor `3`. -/
theorem C2_cex_editDistance_not_sentinel :
    editDistance "VWabc" "abcXY" ((2 : ℕ) : WithTop ℕ) = ((4 : ℕ) : WithTop ℕ)
    ∧ ((2 : ℕ) : WithTop ℕ) < ((lev "VWabc".data "abcXY".data : ℕ) : WithTop ℕ)
    ∧ ((4 : ℕ) : WithTop ℕ) ≠ ((2 : ℕ) : WithTop ℕ)
    ∧ ((4 : ℕ) : WithTop ℕ) ≠ ((2 : ℕ) : WithTop ℕ) + 1 := by
  refine ⟨?_, ?_, ?_, ?_⟩ <;> decide

/-- Claim C2 (amended): for non-empty strings `a`, `b` and any bound `m`,
`editDistance a b m` returns the exact Levenshtein distance whenever that
distance is at most `m`; otherwise it returns either the bound-exceeded
sentinel `m + 1` or the exact distance itself (which then exceeds `m`). -/
theorem C2_editDistance_exact_or_abort (a b : String) (m : WithTop ℕ)
    (ha : a.data ≠ []) (hb : b.data ≠ []) :
    (((lev a.data b.data : ℕ) : WithTop ℕ) ≤ m →
        editDistance a b m = ((lev a.data b.data : ℕ) : WithTop ℕ))
    ∧ (editDistance a b m = ((lev a.data b.data : ℕ) : WithTop ℕ)
        ∨ editDistance a b m = m + 1) := by
  have h := editDistance_cases a b m ha hb
  constructor
  · intro hle
    rcases h with h | ⟨h1, h2⟩
    · exact h
    · exact absurd h2 (not_lt.mpr hle)
  · rcases h with h | ⟨h1, h2⟩
    · exact Or.inl h
    · exact Or.inr h1

/-- Witness for claim C2 (amended) at a concrete input: the distance from
`"ab"` to `"bb"` is `1 ≤ 1`, and `editDistance` returns it exactly. -/
theorem C2_editDistance_exact_or_abort_witness :
    editDistance "ab" "bb" ((1 : ℕ) : WithTop ℕ) = ((lev "ab".data "bb".data : ℕ) : WithTop ℕ) :=
  (C2_editDistance_exact_or_abort "ab" "bb" ((1 : ℕ) : WithTop ℕ)
    (by decide) (by decide)).1 (by decide)

/-- Claim C8: for every bound `m`, if either input string is empty then
`editDistance` returns the bound `m` itself (a sentinel, not a distance);
in particular `editDistance "" "abc"` with the default bound `Infinity`
returns `Infinity`, not `3`; and for every non-empty `a`,
`editDistance a a` with the default bound returns `0`. -/
theorem C8_editDistance_empty_and_self (m : WithTop ℕ) (a b : String) :
    (a.data = [] ∨ b.data = [] → editDistance a b m = m)
    ∧ (editDistance "" "abc" ⊤ = ⊤ ∧ (⊤ : WithTop ℕ) ≠ ((3 : ℕ) : WithTop ℕ))
    ∧ (a.data ≠ [] → editDistance a a ⊤ = 0) := by
  refine ⟨fun h => ?_, ⟨by decide, by decide⟩, fun ha => ?_⟩
  · unfold editDistance
    rw [if_pos h]
  · rcases editDistance_cases a a ⊤ ha ha with h | ⟨h1, h2⟩
    · rw [h, lev_self]
      rfl
    · exact absurd h2 (by simp)

/-- Witness for claim C8 at concrete inputs. -/
theorem C8_editDistance_empty_and_self_witness :
    editDistance "" "xy" ((3 : ℕ) : WithTop ℕ) = ((3 : ℕ) : WithTop ℕ)
    ∧ editDistance "ab" "ab" ⊤ = 0 :=
  ⟨(C8_editDistance_empty_and_self ((3 : ℕ) : WithTop ℕ) "" "xy").1 (Or.inl rfl),
   (C8_editDistance_empty_and_self ⊤ "ab" "zz").2.2 (by decide)⟩

/-! ### The exact (distance-ranked) retriever -/

/-- The `FileIndex` of `src/app/routes/home.tsx`: the corpus paths and the
path → content-length mapping. -/
structure FileIndex where
  paths : List String
  lengths : String → ℕ

/-- A neighbor entry of the exact (distance-ranked) retriever. -/
structure KNNResult where
  path : String
  distance : WithTop ℕ
deriving DecidableEq

/-- The candidate pre-filter of `findKNN` (`src/app/routes/home.tsx` lines
421–425): drop the query itself and keep paths whose index length satisfies
`Math.abs(len - targetLen) <= targetLen / 2`; for integer lengths the
JavaScript comparison against the (possibly fractional) half is exactly
`2 * |len − targetLen| ≤ targetLen`. -/
def findKNNCandidates (fileIndex : FileIndex) (target : String) : List String :=
  fileIndex.paths.filter (fun path =>
    decide (path ≠ target) &&
      decide (2 * Nat.dist (fileIndex.lengths path) (fileIndex.lengths target)
        ≤ fileIndex.lengths target))

/-- The scored-and-filtered candidate list of `findKNN`
(`src/app/routes/home.tsx` lines 428–432): each candidate is paired with
`editDistance(targetContent, content, targetLen)`, then entries whose
distance is `Infinity` are dropped. -/
def findKNNScored (fileIndex : FileIndex) (data : String → String) (target : String) :
    List KNNResult :=
  ((findKNNCandidates fileIndex target).map (fun path =>
    KNNResult.mk path (editDistance (data target) (data path)
      ((fileIndex.lengths target : ℕ) : WithTop ℕ)))).filter
    (fun item => decide (item.distance ≠ ⊤))

/-- The exact retriever of `src/app/routes/home.tsx` lines 416–437: scored
candidates, sorted ascending by distance with the stable sort, first `k`. -/
def findKNN (fileIndex : FileIndex) (data : String → String) (target : String) (k : ℕ) :
    List KNNResult :=
  ((findKNNScored fileIndex data target).mergeSort
    (fun a b => decide (a.distance ≤ b.distance))).take k

theorem findKNN_eval_of_scored (fileIndex : FileIndex) (data : String → String)
    (target : String) (x : KNNResult) (k : ℕ)
    (h : findKNNScored fileIndex data target = [x]) (hk : 1 ≤ k) :
    findKNN fileIndex data target k = [x] := by
  unfold findKNN
  rw [h, List.mergeSort_singleton]
  cases k with
  | zero => omega
  | succ n => simp

/-- Claim C1 (counterexample): the claim states that candidates whose
`editDistance` call returns the bound-exceeded sentinel `Lq + 1` or the
empty-input sentinel `Lq` are discarded before ranking.  The code only
discards `Infinity`, and the bound it passes is the finite `Lq`, so the
sentinels are finite and survive: with query content `""` (`Lq = 0`) and a
candidate with content `""`, `editDistance` takes its empty-input branch
and returns the sentinel `Lq = 0`, yet the candidate is returned with that
sentinel as its displayed distance. -/
theorem C1_cex_findKNN_keeps_sentinel :
    findKNN (FileIndex.mk ["q", "p"] (fun _ => 0)) (fun _ => "") "q" 5
      = [KNNResult.mk "p" ((0 : ℕ) : WithTop ℕ)]
    ∧ editDistance "" "" ((0 : ℕ) : WithTop ℕ) = ((0 : ℕ) : WithTop ℕ) := by
  constructor
  · exact findKNN_eval_of_scored _ _ _ _ 5 (by decide) (by norm_num)
  · decide

/-- Claim C1 (amended): the retriever's post-distance filter discards
exactly the entries whose distance is `Infinity`; since the bound passed to
`editDistance` is the finite index length of the query, every computed
distance is finite, so the filter discards nothing — in particular the
sentinel values `Lq` and `Lq + 1` are not filtered out and can appear as
distances in the ranked list. -/
theorem C1_findKNN_filter_discards_nothing (fileIndex : FileIndex) (data : String → String)
    (target : String) :
    findKNNScored fileIndex data target
      = (findKNNCandidates fileIndex target).map (fun path =>
          KNNResult.mk path (editDistance (data target) (data path)
            ((fileIndex.lengths target : ℕ) : WithTop ℕ))) := by
  unfold findKNNScored
  rw [List.filter_eq_self]
  intro item hitem
  obtain ⟨path, -, rfl⟩ := List.mem_map.mp hitem
  simpa using editDistance_ne_top (data target) (data path) _ WithTop.coe_ne_top

/-- Claim C5: every result of exact-mode retrieval is a non-query path that
passed the index-length admissibility filter `2·|len(P) − Lq| ≤ Lq`; in
particular a path whose index length differs from `Lq` by more than `Lq`
never appears in the result (the candidate list is, definitionally, exactly
the paths `P ≠ Q` passing the filter, and no distance is computed for the
rest). -/
theorem C5_findKNN_pruning (fileIndex : FileIndex) (data : String → String)
    (target : String) (k : ℕ) (r : KNNResult)
    (hr : r ∈ findKNN fileIndex data target k) :
    r.path ≠ target
    ∧ 2 * Nat.dist (fileIndex.lengths r.path) (fileIndex.lengths target)
        ≤ fileIndex.lengths target
    ∧ Nat.dist (fileIndex.lengths r.path) (fileIndex.lengths target)
        ≤ fileIndex.lengths target := by
  have h1 : r ∈ findKNNScored fileIndex data target := by
    have h2 := List.mem_of_mem_take hr
    exact List.mem_mergeSort.mp h2
  have h3 : r ∈ (findKNNCandidates fileIndex target).map (fun path =>
      KNNResult.mk path (editDistance (data target) (data path)
        ((fileIndex.lengths target : ℕ) : WithTop ℕ))) := List.mem_of_mem_filter h1
  obtain ⟨path, hpath, rfl⟩ := List.mem_map.mp h3
  have h4 := List.of_mem_filter hpath
  simp only [Bool.and_eq_true, decide_eq_true_eq] at h4
  refine ⟨h4.1, h4.2, ?_⟩
  dsimp only
  omega

/-- Witness for claim C5 at a concrete corpus. -/
theorem C5_findKNN_pruning_witness :
    (KNNResult.mk "p" ((2 : ℕ) : WithTop ℕ)).path ≠ "q"
    ∧ 2 * Nat.dist ((fun _ => 2) "p") ((fun _ => 2) "q") ≤ (fun _ => 2) "q"
    ∧ Nat.dist ((fun _ => 2) "p") ((fun _ => 2) "q") ≤ (fun _ => 2) "q" := by
  have hmem : KNNResult.mk "p" ((2 : ℕ) : WithTop ℕ)
      ∈ findKNN (FileIndex.mk ["q", "p"] (fun _ => 2))
          (fun p => if p = "q" then "ab" else "cd") "q" 5 := by
    rw [findKNN_eval_of_scored (FileIndex.mk ["q", "p"] (fun _ => 2))
      (fun p => if p = "q" then "ab" else "cd") "q"
      (KNNResult.mk "p" ((2 : ℕ) : WithTop ℕ)) 5 (by decide) (by norm_num)]
    exact List.mem_singleton_self _
  exact C5_findKNN_pruning (FileIndex.mk ["q", "p"] (fun _ => 2))
    (fun p => if p = "q" then "ab" else "cd") "q" 5
    (KNNResult.mk "p" ((2 : ℕ) : WithTop ℕ)) hmem

/-! ### The line diff engines -/

/-- Row kind of the two-pointer diff (`src/app/routes/home.tsx` lines
94–124): `same` on both sides, `removed` on the left, `added` on the
right. -/
inductive DiffType where
  | same : DiffType
  | removed : DiffType
  | added : DiffType
deriving DecidableEq

/-- A row of the two-pointer diff. -/
structure DiffRow where
  text : String
  type : DiffType
deriving DecidableEq

/-- Lines of a string, as JavaScript `str.split("\n")`. -/
def splitLinesStr (s : String) : List String :=
  (splitOnChar '\n' s.data).map (fun l => String.mk l)

/-- Trailing `added` rows emitted by the two-pointer loop once the left
side is exhausted. -/
def addedTail : List String → List DiffRow
  | [] => []
  | y :: ys => DiffRow.mk y DiffType.added :: addedTail ys

/-- The two-pointer diff loop of `getDiffLines` (`src/app/routes/home.tsx`
lines 103–121): equal current lines emit a `same` row on each side and
advance both cursors; otherwise each non-exhausted side emits its own
`removed`/`added` row and advances independently — no placeholder row is
emitted for the other side. -/
def getDiffLinesLoop : List String → List String → List DiffRow × List DiffRow
  | [], ys => ([], addedTail ys)
  | x :: xs, [] =>
    (DiffRow.mk x DiffType.removed :: (getDiffLinesLoop xs []).1, (getDiffLinesLoop xs []).2)
  | x :: xs, y :: ys =>
    if x = y then
      (DiffRow.mk x DiffType.same :: (getDiffLinesLoop xs ys).1,
        DiffRow.mk y DiffType.same :: (getDiffLinesLoop xs ys).2)
    else
      (DiffRow.mk x DiffType.removed :: (getDiffLinesLoop xs ys).1,
        DiffRow.mk y DiffType.added :: (getDiffLinesLoop xs ys).2)

/-- The two-pointer diff `getDiffLines` of `src/app/routes/home.tsx` lines
94–124 (the `str || ""` guards are identities on total strings). -/
def getDiffLines (str1 str2 : String) : List DiffRow × List DiffRow :=
  getDiffLinesLoop (splitLinesStr str1) (splitLinesStr str2)

theorem addedTail_roundTrip (l : List String) :
    ((addedTail l).filter (fun r => decide (r.type ≠ DiffType.removed))).map (fun r => r.text)
      = l := by
  induction l with
  | nil => rfl
  | cons y ys ih =>
    simp only [ne_eq, decide_not] at ih ⊢
    simp [addedTail, ih]

theorem getDiffLinesLoop_roundTrip : ∀ (l1 l2 : List String),
    (((getDiffLinesLoop l1 l2).1.filter (fun r => decide (r.type ≠ DiffType.added))).map
        (fun r => r.text) = l1)
    ∧ (((getDiffLinesLoop l1 l2).2.filter (fun r => decide (r.type ≠ DiffType.removed))).map
        (fun r => r.text) = l2) := by
  intro l1
  induction l1 with
  | nil =>
    intro l2
    exact ⟨rfl, addedTail_roundTrip l2⟩
  | cons x xs ih =>
    intro l2
    cases l2 with
    | nil =>
      obtain ⟨h1, h2⟩ := ih []
      simp only [ne_eq, decide_not] at h1 h2 ⊢
      constructor
      · show ((DiffRow.mk x DiffType.removed :: (getDiffLinesLoop xs []).1).filter _).map _ = _
        simp [h1]
      · exact h2
    | cons y ys =>
      obtain ⟨h1, h2⟩ := ih ys
      simp only [ne_eq, decide_not] at h1 h2 ⊢
      by_cases hxy : x = y
      · rw [show getDiffLinesLoop (x :: xs) (y :: ys)
            = (DiffRow.mk x DiffType.same :: (getDiffLinesLoop xs ys).1,
                DiffRow.mk y DiffType.same :: (getDiffLinesLoop xs ys).2) from by
          show (if x = y then _ else _) = _
          rw [if_pos hxy]]
        constructor
        · simp [h1]
        · simp [h2]
      · rw [show getDiffLinesLoop (x :: xs) (y :: ys)
            = (DiffRow.mk x DiffType.removed :: (getDiffLinesLoop xs ys).1,
                DiffRow.mk y DiffType.added :: (getDiffLinesLoop xs ys).2) from by
          show (if x = y then _ else _) = _
          rw [if_neg hxy]]
        constructor
        · simp [h1]
        · simp [h2]

/-- The LCS dynamic-programming table of `src/unnamed/part_000` lines
142–153, as a fueled recursion (the fuel only has to dominate `i + j`; the
fuel-exhausted result `0` coincides with the base rows, so any call with
`fuel ≥ i + j` computes the table value `dp[i][j]`). -/
def lcsDP (a b : List String) : ℕ → ℕ → ℕ → ℕ
  | 0, _, _ => 0
  | fuel + 1, i, j =>
    match i, j with
    | 0, _ => 0
    | _ + 1, 0 => 0
    | i + 1, j + 1 =>
      if a.getD i "" = b.getD j "" then lcsDP a b fuel i j + 1
      else max (lcsDP a b fuel i (j + 1)) (lcsDP a b fuel (i + 1) j)

/-- The LCS backtracking loop of `src/unnamed/part_000` lines 155–168:
from `(i, j)` move diagonally on equal elements (collecting the element),
otherwise towards the larger table entry (`dp[i-1][j] > dp[i][j-1]` steps
up, else left); the collected elements are `unshift`ed, which is the
`++ [·]` on the recursive result.  Fuel dominating `i + j` is exact: the
fuel-exhausted `[]` coincides with the base case. -/
def lcsBack (a b : List String) : ℕ → ℕ → ℕ → List String
  | 0, _, _ => []
  | fuel + 1, i, j =>
    match i, j with
    | 0, _ => []
    | _ + 1, 0 => []
    | i + 1, j + 1 =>
      if a.getD i "" = b.getD j "" then lcsBack a b fuel i j ++ [a.getD i ""]
      else if lcsDP a b (i + j + 1) i (j + 1) > lcsDP a b (i + j + 1) (i + 1) j then
        lcsBack a b fuel i (j + 1)
      else lcsBack a b fuel (i + 1) j

/-- The `longestCommonSubsequence` of `src/unnamed/part_000` lines 142–171. -/
def longestCommonSubsequence (arr1 arr2 : List String) : List String :=
  lcsBack arr1 arr2 (arr1.length + arr2.length) arr1.length arr2.length

/-- Kind of a row of the LCS-based diff (`src/unnamed/part_000` lines
99–100): the source declares `"same" | "removed" | "diff"` on the left and
`"same" | "added" | "diff"` on the right but only ever pushes `same`
(including the `"&nbsp"` placeholder rows) and `diff`. -/
inductive LcsType where
  | same : LcsType
  | diff : LcsType
deriving DecidableEq

/-- A row of the LCS-based diff. -/
structure LcsRow where
  text : String
  type : LcsType
deriving DecidableEq

/-- Words of a line, as JavaScript `line.split(' ')`. -/
def splitWordsStr (s : String) : List String :=
  (splitOnChar ' ' s.data).map (fun l => String.mk l)

/-- The red highlight span of `src/unnamed/part_000` line 113. -/
def spanRed (w : String) : String :=
  "<span class=\"text-red-500\">" ++ w ++ "</span>"

/-- The green highlight span of `src/unnamed/part_000` line 114. -/
def spanGreen (w : String) : String :=
  "<span class=\"text-green-500\">" ++ w ++ "</span>"

/-- The word-level markup text of a changed row (`src/unnamed/part_000`
lines 111–121): the first 100 words of the own line are kept verbatim when
they occur anywhere among the other line's words and wrapped in a span
otherwise; words beyond the first 100 are appended as one wrapped span;
the pieces are joined with single spaces. -/
def wordsDiffText (mine others : List String) (span : String → String) : String :=
  String.intercalate " "
    (((mine.take 100).map (fun w => if w ∈ others then w else span w)) ++
      (if 100 < mine.length then [span (String.intercalate " " (mine.drop 100))] else []))

/-- Words of the current line of a cursor, `lines[i]?.split(' ') || []`. -/
def headWords (l : List String) : List String :=
  (l.head?.map splitWordsStr).getD []

/-- The cursor-advance test of `src/unnamed/part_000` lines 123 and 130:
the side advances when it is not exhausted and its current line is not the
current LCS element (or the LCS is exhausted). -/
def advCond (l : List String) (lc : List String) : Bool :=
  match l, lc with
  | [], _ => false
  | _ :: _, [] => true
  | x :: _, c :: _ => decide (x ≠ c)

/-- The LCS-walk loop of `getLineDiffs` (`src/unnamed/part_000` lines
102–137), with fuel: when the LCS is not exhausted, neither side is
exhausted and the current lines are equal, emit a `same` row on each side
and advance all three cursors; otherwise each side either emits a `diff`
row with word markup and advances, or emits the `"&nbsp"` placeholder row
(typed `same`) and stays.  With the actual LCS at least one side advances
in every iteration, so fuel `len1 + len2` (as passed by `getLineDiffs`)
never runs out; the fuel-exhausted case returns the rows accumulated so
far. -/
def getLineDiffsLoop : ℕ → List String → List String → List String → List LcsRow × List LcsRow
  | 0, _, _, _ => ([], [])
  | _ + 1, [], [], _ => ([], [])
  | fuel + 1, x :: xs, y :: ys, c :: cs =>
    if x = y then
      (LcsRow.mk x LcsType.same :: (getLineDiffsLoop fuel xs ys cs).1,
        LcsRow.mk y LcsType.same :: (getLineDiffsLoop fuel xs ys cs).2)
    else
      ((if advCond (x :: xs) (c :: cs) then
          LcsRow.mk (wordsDiffText (headWords (x :: xs)) (headWords (y :: ys)) spanRed)
            LcsType.diff
        else LcsRow.mk "&nbsp" LcsType.same) ::
        (getLineDiffsLoop fuel (if advCond (x :: xs) (c :: cs) then xs else x :: xs)
          (if advCond (y :: ys) (c :: cs) then ys else y :: ys) (c :: cs)).1,
       (if advCond (y :: ys) (c :: cs) then
          LcsRow.mk (wordsDiffText (headWords (y :: ys)) (headWords (x :: xs)) spanGreen)
            LcsType.diff
        else LcsRow.mk "&nbsp" LcsType.same) ::
        (getLineDiffsLoop fuel (if advCond (x :: xs) (c :: cs) then xs else x :: xs)
          (if advCond (y :: ys) (c :: cs) then ys else y :: ys) (c :: cs)).2)
  | fuel + 1, l1, l2, lc =>
    ((if advCond l1 lc then
        LcsRow.mk (wordsDiffText (headWords l1) (headWords l2) spanRed) LcsType.diff
      else LcsRow.mk "&nbsp" LcsType.same) ::
      (getLineDiffsLoop fuel (if advCond l1 lc then l1.tail else l1)
        (if advCond l2 lc then l2.tail else l2) lc).1,
     (if advCond l2 lc then
        LcsRow.mk (wordsDiffText (headWords l2) (headWords l1) spanGreen) LcsType.diff
      else LcsRow.mk "&nbsp" LcsType.same) ::
      (getLineDiffsLoop fuel (if advCond l1 lc then l1.tail else l1)
        (if advCond l2 lc then l2.tail else l2) lc).2)

/-- The LCS-based diff `getLineDiffs` of `src/unnamed/part_000` lines
94–140. -/
def getLineDiffs (str1 str2 : String) : List LcsRow × List LcsRow :=
  getLineDiffsLoop ((splitLinesStr str1).length + (splitLinesStr str2).length)
    (splitLinesStr str1) (splitLinesStr str2)
    (longestCommonSubsequence (splitLinesStr str1) (splitLinesStr str2))

theorem getLineDiffsLoop_length : ∀ (fuel : ℕ) (l1 l2 lc : List String),
    (getLineDiffsLoop fuel l1 l2 lc).1.length = (getLineDiffsLoop fuel l1 l2 lc).2.length := by
  intro fuel
  induction fuel with
  | zero => intro l1 l2 lc; rfl
  | succ fuel ih =>
    intro l1 l2 lc
    match l1, l2, lc with
    | [], [], lc => rfl
    | x :: xs, y :: ys, c :: cs =>
      by_cases hxy : x = y
      · simp only [getLineDiffsLoop, if_pos hxy]
        simp [ih]
      · simp only [getLineDiffsLoop, if_neg hxy]
        simp [ih]
    | [], y :: ys, lc => simp [getLineDiffsLoop, ih]
    | x :: xs, [], lc => simp [getLineDiffsLoop, ih]
    | x :: xs, y :: ys, [] => simp [getLineDiffsLoop, ih]

/-- Claim C4 (counterexample): the claim states that both alignment modes
return left and right sequences of equal length.  The two-pointer mode
emits no placeholder rows: when the left input is exhausted while the
right still has lines, only the right sequence grows.  On inputs `"a"` and
`"a\nb"` the two-pointer `getDiffLines` returns 1 left row and 2 right
rows. -/
theorem C4_cex_getDiffLines_unequal_length :
    (getDiffLines "a" "a\nb").1.length = 1 ∧ (getDiffLines "a" "a\nb").2.length = 2 := by
  constructor <;> decide

/-- Claim C4 (amended): the LCS-based `getLineDiffs` returns left and right
sequences of equal length for every pair of inputs — each loop iteration
emits exactly one row per side, a `"&nbsp"` placeholder row standing in
whenever a side does not advance; the two-pointer `getDiffLines` does not
share this property (it emits no placeholders, so the sides can differ in
length when one input has unmatched trailing lines). -/
theorem C4_getLineDiffs_equal_length (str1 str2 : String) :
    (getLineDiffs str1 str2).1.length = (getLineDiffs str1 str2).2.length :=
  getLineDiffsLoop_length _ _ _ _

/-- Claim C6 (counterexample): the claim states that concatenating the
left-row texts of kind ≠ added (skipping placeholders) reconstructs the
left input's lines.  In the LCS-based `getLineDiffs`, changed rows carry
word-markup text: on inputs `"a"` and `"b"` the only left row has text
`<span class="text-red-500">a</span>`, so the reconstruction yields that
markup string instead of the original line `"a"`. -/
theorem C6_cex_getLineDiffs_markup :
    (((getLineDiffs "a" "b").1.filter (fun r => decide (r.text ≠ "&nbsp"))).map
        (fun r => r.text))
      = ["<span class=\"text-red-500\">a</span>"]
    ∧ (((getLineDiffs "a" "b").1.filter (fun r => decide (r.text ≠ "&nbsp"))).map
        (fun r => r.text)) ≠ splitLinesStr "a" := by
  constructor <;> decide

/-- Claim C6 (amended): the alignment round-trip holds for the two-pointer
`getDiffLines`: the left rows of kind ≠ added carry the left input's lines
verbatim and in order, and symmetrically the right rows of kind ≠ removed
carry the right input's lines (there are no placeholder rows to skip in
this mode).  In the LCS-based `getLineDiffs` the round-trip fails because
changed rows carry span-markup texts. -/
theorem C6_getDiffLines_roundTrip (str1 str2 : String) :
    ((((getDiffLines str1 str2).1.filter (fun r => decide (r.type ≠ DiffType.added))).map
        (fun r => r.text)) = splitLinesStr str1)
    ∧ ((((getDiffLines str1 str2).2.filter (fun r => decide (r.type ≠ DiffType.removed))).map
        (fun r => r.text)) = splitLinesStr str2) :=
  getDiffLinesLoop_roundTrip (splitLinesStr str1) (splitLinesStr str2)

/-! ### Ranking properties of the approximate retriever -/

theorem simLE_trans (a b c : SimResult) :
    (fun a b : SimResult => decide (b.similarity ≤ a.similarity)) a b →
    (fun a b : SimResult => decide (b.similarity ≤ a.similarity)) b c →
    (fun a b : SimResult => decide (b.similarity ≤ a.similarity)) a c := by
  simp only [decide_eq_true_eq]
  exact fun h1 h2 => le_trans h2 h1

theorem simLE_total (a b : SimResult) :
    ((fun a b : SimResult => decide (b.similarity ≤ a.similarity)) a b ||
      (fun a b : SimResult => decide (b.similarity ≤ a.similarity)) b a) := by
  simp only [Bool.or_eq_true, decide_eq_true_eq]
  exact le_total b.similarity a.similarity

theorem mergeSort_filter_of_class {α : Type*} (le : α → α → Bool) (p : α → Bool)
    (htrans : ∀ a b c, le a b → le b c → le a c)
    (htotal : ∀ a b, le a b || le b a)
    (hcls : ∀ a b, p a → p b → le a b) (l : List α) :
    (l.mergeSort le).filter p = l.filter p := by
  have hpair : (l.filter p).Pairwise (fun a b => le a b = true) :=
    List.pairwise_of_forall_mem_list (fun a ha b hb =>
      hcls a b (List.of_mem_filter ha) (List.of_mem_filter hb))
  have hsub : l.filter p <+ l.mergeSort le :=
    List.sublist_mergeSort htrans htotal hpair (List.filter_sublist l)
  have hsub2 : l.filter p <+ (l.mergeSort le).filter p := by
    have h2 := hsub.filter p
    rwa [List.filter_eq_self.mpr (fun x hx => List.of_mem_filter hx)] at h2
  have hperm : (l.mergeSort le).filter p ~ l.filter p := (List.mergeSort_perm l le).filter p
  exact (hsub2.eq_of_length hperm.length_eq.symm).symm

/-- Claim C7: approximate-mode retrieval returns, over the corpus paths
other than the query, a list that is sorted in descending order of
similarity, truncated to the first `k` entries, never contains the query,
and is a stable sort of the scored candidate list: for every similarity
value `v` the tie class of `v` appears in the sorted list in exactly the
original corpus iteration order; when `k` covers all candidates, every
non-query corpus path appears. -/
theorem C7_calculateSimilarities_ranking (data : String → String) (q : String)
    (allPaths : List String) (k : ℕ) :
    (∀ r ∈ calculateSimilarities data q allPaths k, r.path ≠ q ∧ r.path ∈ allPaths)
    ∧ (calculateSimilarities data q allPaths k).Sorted
        (fun a b => b.similarity ≤ a.similarity)
    ∧ (calculateSimilarities data q allPaths k).length
        = min k (allPaths.filter (fun p => decide (p ≠ q))).length
    ∧ (∀ v : ℚ,
        (((similarityScored data q allPaths).mergeSort
            (fun a b => decide (b.similarity ≤ a.similarity))).filter
            (fun r => decide (r.similarity = v)))
          = (similarityScored data q allPaths).filter (fun r => decide (r.similarity = v)))
    ∧ ((allPaths.filter (fun p => decide (p ≠ q))).length ≤ k →
        ∀ p ∈ allPaths, p ≠ q →
          p ∈ (calculateSimilarities data q allPaths k).map (fun r => r.path)) := by
  refine ⟨?_, ?_, ?_, ?_, ?_⟩
  · intro r hr
    have h1 : r ∈ similarityScored data q allPaths :=
      List.mem_mergeSort.mp (List.mem_of_mem_take hr)
    obtain ⟨path, hpath, rfl⟩ := List.mem_map.mp h1
    have h2 := List.of_mem_filter hpath
    simp only [decide_eq_true_eq] at h2
    exact ⟨h2, List.mem_of_mem_filter hpath⟩
  · have hs := List.sorted_mergeSort simLE_trans simLE_total
      (similarityScored data q allPaths)
    have ht : (calculateSimilarities data q allPaths k).Pairwise
        (fun a b : SimResult => decide (b.similarity ≤ a.similarity) = true) :=
      hs.sublist (List.take_sublist _ _)
    exact ht.imp (fun h => of_decide_eq_true h)
  · unfold calculateSimilarities
    rw [List.length_take, List.length_mergeSort]
    unfold similarityScored
    rw [List.length_map]
  · intro v
    exact mergeSort_filter_of_class _ _ simLE_trans simLE_total
      (fun a b ha hb => by
        simp only [decide_eq_true_eq] at ha hb ⊢
        rw [ha, hb]) _
  · intro hk p hp hpq
    have hlen : ((similarityScored data q allPaths).mergeSort
        (fun a b => decide (b.similarity ≤ a.similarity))).length
        ≤ k := by
      rw [List.length_mergeSort]
      unfold similarityScored
      rw [List.length_map]
      exact hk
    have htake : calculateSimilarities data q allPaths k
        = (similarityScored data q allPaths).mergeSort
            (fun a b => decide (b.similarity ≤ a.similarity)) :=
      List.take_of_length_le hlen
    have hmemf : p ∈ allPaths.filter (fun p => decide (p ≠ q)) :=
      List.mem_filter.mpr ⟨hp, by simpa using hpq⟩
    have hmem : SimResult.mk p
        (calculateJaccardSimilarity (getMinHash (data q) 10) (getMinHash (data p) 10))
        ∈ similarityScored data q allPaths := by
      unfold similarityScored
      exact List.mem_map_of_mem _ hmemf
    rw [htake]
    exact List.mem_map.mpr ⟨_, List.mem_mergeSort.mpr hmem, rfl⟩

theorem jaccard_self (sig : List (WithTop ℕ)) (h : sig.length ≠ 0) :
    calculateJaccardSimilarity sig sig = 1 := by
  unfold calculateJaccardSimilarity
  rw [List.countP_eq_length.mpr (fun i _ => by simp), List.length_range]
  rw [div_self (by exact_mod_cast h)]

/-- Witness for claim C7 at a concrete corpus with one candidate. -/
theorem C7_calculateSimilarities_ranking_witness :
    (SimResult.mk "B" (1 : ℚ)).path ≠ "A" ∧ (SimResult.mk "B" (1 : ℚ)).path ∈ ["A", "B"] := by
  have hscored : similarityScored (fun _ => "x") "A" ["A", "B"] = [SimResult.mk "B" (1 : ℚ)] := by
    unfold similarityScored
    rw [show (["A", "B"].filter (fun path => decide (path ≠ "A"))) = ["B"] from by decide]
    simp only [List.map_cons, List.map_nil]
    rw [jaccard_self (getMinHash "x" 10) (by simp [getMinHash])]
  have heval : calculateSimilarities (fun _ => "x") "A" ["A", "B"] 50
      = [SimResult.mk "B" (1 : ℚ)] := by
    unfold calculateSimilarities
    rw [hscored, List.mergeSort_singleton]
    simp
  exact (C7_calculateSimilarities_ranking (fun _ => "x") "A" ["A", "B"] 50).1
    (SimResult.mk "B" (1 : ℚ)) (by rw [heval]; exact List.mem_singleton_self _)

/-! ### Faithfulness of the fueled LCS walk

The source's `while` loop runs until both cursors are exhausted; the fueled
embedding `getLineDiffsLoop` is passed fuel `len1 + len2` by
`getLineDiffs`.  The lemmas below show that the walk advances a cursor in
every iteration whenever the third argument is a common sublist of the two
line lists — which `longestCommonSubsequence` always produces — so the
fuel never runs out and the fueled result is the loop's natural fixed
point (the same for every sufficient fuel). -/

theorem take_sublist_succ (l : List String) (n : ℕ) : l.take n <+ l.take (n + 1) := by
  have h := List.take_sublist n (l.take (n + 1))
  rwa [List.take_take, min_eq_left (by omega)] at h

theorem lcsBack_sublist (a b : List String) : ∀ (fuel i j : ℕ), i ≤ a.length → j ≤ b.length →
    lcsBack a b fuel i j <+ a.take i ∧ lcsBack a b fuel i j <+ b.take j := by
  intro fuel
  induction fuel with
  | zero => exact fun i j _ _ => ⟨List.nil_sublist _, List.nil_sublist _⟩
  | succ fuel ih =>
    intro i j hi hj
    match i, j with
    | 0, j => exact ⟨List.nil_sublist _, List.nil_sublist _⟩
    | i + 1, 0 => exact ⟨List.nil_sublist _, List.nil_sublist _⟩
    | i + 1, j + 1 =>
      have hi' : i < a.length := by omega
      have hj' : j < b.length := by omega
      by_cases heq : a.getD i "" = b.getD j ""
      · obtain ⟨h1, h2⟩ := ih i j (by omega) (by omega)
        simp only [lcsBack, if_pos heq]
        constructor
        · rw [List.take_succ, List.getElem?_eq_getElem hi']
          refine List.Sublist.append h1 ?_
          rw [show a.getD i "" = a[i] from by simp [List.getD_eq_getElem?_getD,
            List.getElem?_eq_getElem hi']]
          exact List.Sublist.refl _
        · rw [List.take_succ, List.getElem?_eq_getElem hj']
          refine List.Sublist.append h2 ?_
          rw [heq, show b.getD j "" = b[j] from by simp [List.getD_eq_getElem?_getD,
            List.getElem?_eq_getElem hj']]
          exact List.Sublist.refl _
      · simp only [lcsBack, if_neg heq]
        by_cases hcmp : lcsDP a b (i + j + 1) i (j + 1) > lcsDP a b (i + j + 1) (i + 1) j
        · rw [if_pos hcmp]
          obtain ⟨h1, h2⟩ := ih i (j + 1) (by omega) hj
          exact ⟨h1.trans (take_sublist_succ a i), h2⟩
        · rw [if_neg hcmp]
          obtain ⟨h1, h2⟩ := ih (i + 1) j hi (by omega)
          exact ⟨h1, h2.trans (take_sublist_succ b j)⟩

theorem longestCommonSubsequence_sublist (arr1 arr2 : List String) :
    longestCommonSubsequence arr1 arr2 <+ arr1 ∧ longestCommonSubsequence arr1 arr2 <+ arr2 := by
  have h := lcsBack_sublist arr1 arr2 (arr1.length + arr2.length) arr1.length arr2.length
    (le_refl _) (le_refl _)
  simpa [longestCommonSubsequence, List.take_length] using h

theorem sublist_tail_of_cons_cons {a b : String} {l L : List String}
    (h : a :: l <+ b :: L) : l <+ L := by
  cases h with
  | cons _ h2 => exact List.sublist_of_cons_sublist h2
  | cons₂ _ h2 => exact h2

theorem cons_sublist_of_ne {a b : String} {l L : List String}
    (h : a :: l <+ b :: L) (hne : a ≠ b) : a :: l <+ L := by
  cases h with
  | cons _ h2 => exact h2
  | cons₂ _ h2 => exact absurd rfl hne

theorem getLineDiffsLoop_fuel_stable : ∀ (fuel : ℕ) (l1 l2 lc : List String),
    lc <+ l1 → lc <+ l2 → l1.length + l2.length ≤ fuel →
    getLineDiffsLoop (fuel + 1) l1 l2 lc = getLineDiffsLoop fuel l1 l2 lc := by
  intro fuel
  induction fuel with
  | zero =>
    intro l1 l2 lc h1 h2 hlen
    obtain rfl : l1 = [] := List.eq_nil_of_length_eq_zero (by omega)
    obtain rfl : l2 = [] := List.eq_nil_of_length_eq_zero (by omega)
    rfl
  | succ fuel ih =>
    intro l1 l2 lc h1 h2 hlen
    match l1, l2, lc with
    | [], [], lc => rfl
    | x :: xs, y :: ys, c :: cs =>
      by_cases hxy : x = y
      · have hcs1 : cs <+ xs := sublist_tail_of_cons_cons h1
        have hcs2 : cs <+ ys := sublist_tail_of_cons_cons h2
        simp only [getLineDiffsLoop, if_pos hxy]
        rw [ih xs ys cs hcs1 hcs2 (by simp at hlen ⊢; omega)]
      · simp only [getLineDiffsLoop, if_neg hxy]
        by_cases hxc : x = c
        · have hyc : y ≠ c := fun h => hxy (h ▸ hxc ▸ rfl)
          have ha1 : advCond (x :: xs) (c :: cs) = false := by simp [advCond, hxc]
          have ha2 : advCond (y :: ys) (c :: cs) = true := by simp [advCond, hyc]
          rw [ha1, ha2]
          simp only [if_true, if_false, Bool.false_eq_true, ite_true, ite_false]
          have h2' : c :: cs <+ ys := cons_sublist_of_ne h2 (fun h => hyc h.symm)
          rw [ih (x :: xs) ys (c :: cs) h1 h2' (by simp at hlen ⊢; omega)]
        · have ha1 : advCond (x :: xs) (c :: cs) = true := by simp [advCond, hxc]
          have h1' : c :: cs <+ xs := cons_sublist_of_ne h1 (fun h => hxc h.symm)
          by_cases hyc : y = c
          · have ha2 : advCond (y :: ys) (c :: cs) = false := by simp [advCond, hyc]
            rw [ha1, ha2]
            simp only [if_true, if_false, Bool.false_eq_true, ite_true, ite_false]
            rw [ih xs (y :: ys) (c :: cs) h1' h2 (by simp at hlen ⊢; omega)]
          · have ha2 : advCond (y :: ys) (c :: cs) = true := by simp [advCond, hyc]
            have h2' : c :: cs <+ ys := cons_sublist_of_ne h2 (fun h => hyc h.symm)
            rw [ha1, ha2]
            simp only [if_true, if_false, Bool.false_eq_true, ite_true, ite_false]
            rw [ih xs ys (c :: cs) h1' h2' (by simp at hlen ⊢; omega)]
    | [], y :: ys, lc =>
      obtain rfl : lc = [] := List.sublist_nil.mp h1
      simp only [getLineDiffsLoop, advCond]
      simp only [if_true, if_false, Bool.false_eq_true, ite_true, ite_false, List.tail_cons]
      rw [ih [] ys [] (List.nil_sublist _) (List.nil_sublist _) (by simp at hlen ⊢; omega)]
    | x :: xs, [], lc =>
      obtain rfl : lc = [] := List.sublist_nil.mp h2
      simp only [getLineDiffsLoop, advCond]
      simp only [if_true, if_false, Bool.false_eq_true, ite_true, ite_false, List.tail_cons]
      rw [ih xs [] [] (List.nil_sublist _) (List.nil_sublist _) (by simp at hlen ⊢; omega)]
    | x :: xs, y :: ys, [] =>
      simp only [getLineDiffsLoop, advCond]
      simp only [if_true, if_false, Bool.false_eq_true, ite_true, ite_false, List.tail_cons]
      rw [ih xs ys [] (List.nil_sublist _) (List.nil_sublist _) (by simp at hlen ⊢; omega)]

theorem getLineDiffsLoop_fuel_add : ∀ (extra fuel : ℕ) (l1 l2 lc : List String),
    lc <+ l1 → lc <+ l2 → l1.length + l2.length ≤ fuel →
    getLineDiffsLoop (fuel + extra) l1 l2 lc = getLineDiffsLoop fuel l1 l2 lc := by
  intro extra
  induction extra with
  | zero => intro fuel l1 l2 lc _ _ _; rfl
  | succ extra ih =>
    intro fuel l1 l2 lc h1 h2 hlen
    have h3 := getLineDiffsLoop_fuel_stable (fuel + extra) l1 l2 lc h1 h2 (by omega)
    calc getLineDiffsLoop (fuel + (extra + 1)) l1 l2 lc
        = getLineDiffsLoop (fuel + extra + 1) l1 l2 lc := by rw [Nat.add_assoc]
      _ = getLineDiffsLoop (fuel + extra) l1 l2 lc := h3
      _ = getLineDiffsLoop fuel l1 l2 lc := ih fuel l1 l2 lc h1 h2 hlen

/-- The fuel passed by `getLineDiffs` is sufficient: the result does not
change if the loop is given any amount of additional fuel, so the fueled
embedding coincides with the source's unbounded `while` loop. -/
theorem getLineDiffs_fuel_sufficient (str1 str2 : String) (extra : ℕ) :
    getLineDiffsLoop ((splitLinesStr str1).length + (splitLinesStr str2).length + extra)
      (splitLinesStr str1) (splitLinesStr str2)
      (longestCommonSubsequence (splitLinesStr str1) (splitLinesStr str2))
      = getLineDiffs str1 str2 := by
  obtain ⟨hs1, hs2⟩ := longestCommonSubsequence_sublist (splitLinesStr str1) (splitLinesStr str2)
  exact getLineDiffsLoop_fuel_add extra _ _ _ _ hs1 hs2 (le_refl _)

theorem rowFrom_length {α : Type*} [DecidableEq α] (as : List α) :
    ∀ (bs c : List α), (rowFrom as c bs).length = bs.length + 1 := by
  intro bs
  induction bs with
  | nil => intro c; rfl
  | cons y ys ih =>
    intro c
    show (lev as c :: rowFrom as (c ++ [y]) ys).length = _
    simp [ih (c ++ [y])]
